import Mathlib

/-!
Shallow embedding of `ArrayStack.h` (PKIsensee/ArrayStack): a fixed-capacity
stack of `T` over `std::array<T, N>` with a cursor `top_`.

Modelling conventions:
* `std::array<T, N>` is modelled as `Fin n → α`; the member `top_` as a `Nat`
  together with the container invariant `top_ ≤ n` (spec section 3: `0 <= size
  <= Capacity` at all times).
* Operations whose body starts with a debug `assert` are modelled as
  `Option`-valued functions: `none` is the aborted (assertion-failed /
  undefined-behaviour) outcome, `some s` the state after the operation.
* For each operation, a separate `..._assertCond` boolean records the
  conjunction of the conditions of the `assert` statements that literally
  appear in that operation's body in the source (vacuously `true` when the
  body contains no assert).
-/

namespace PKIsensee

/-- State of `ArrayStack<T, N>`: the backing array `c_`, the cursor `top_`
(points to where the next element will be pushed), and the container
invariant `top_ ≤ n`. -/
structure ArrayStack (α : Type) (n : Nat) where
  c_ : Fin n → α
  top_ : Nat
  htop : top_ ≤ n

namespace ArrayStack

variable {α : Type} {n : Nat}

/-- Two states with the same array and the same cursor are equal. -/
theorem ext_state (a b : ArrayStack α n) (hc : a.c_ = b.c_)
    (ht : a.top_ = b.top_) : a = b := by
  cases a; cases b; simp_all

/-- Source: `empty()` returns `top_ == 0`. -/
def empty (s : ArrayStack α n) : Bool := s.top_ == 0

/-- Source: `full()` returns `top_ == N`. -/
def full (s : ArrayStack α n) : Bool := s.top_ == n

/-- Source: `size()` returns `top_`. -/
def size (s : ArrayStack α n) : Nat := s.top_

/-- Source: `capacity()` returns `N`. -/
def capacity (_ : ArrayStack α n) : Nat := n

/-- Source: `clear()` sets `top_ = 0`. -/
def clear (s : ArrayStack α n) : ArrayStack α n :=
  { c_ := s.c_, top_ := 0, htop := Nat.zero_le n }

/-- Source: `top()` asserts `!empty()` and returns `c_[top_-1]`.
`none` models the assertion failing. -/
def top? (s : ArrayStack α n) : Option α :=
  if h : 0 < s.top_ then
    some (s.c_ ⟨s.top_ - 1, by have := s.htop; omega⟩)
  else none

/-- Source: `push(v)` asserts `!full()`, writes `c_[top_] = v`, increments
`top_`. `none` models the assertion failing (given the invariant,
`!full()` is exactly `top_ < n`). -/
def push (s : ArrayStack α n) (v : α) : Option (ArrayStack α n) :=
  if h : s.top_ < n then
    some { c_ := Function.update s.c_ ⟨s.top_, h⟩ v, top_ := s.top_ + 1, htop := h }
  else none

/-- Source: `pop()` asserts `!empty()` and decrements `top_`. -/
def pop (s : ArrayStack α n) : Option (ArrayStack α n) :=
  if 0 < s.top_ then
    some { c_ := s.c_, top_ := s.top_ - 1, htop := by have := s.htop; omega }
  else none

/-- Source: `operator[](i)` asserts `i < size()` and returns `c_[i]`. -/
def get? (s : ArrayStack α n) (i : Nat) : Option α :=
  if h : i < s.top_ then
    some (s.c_ ⟨i, by have := s.htop; omega⟩)
  else none

/-- Array write loop of `push_range`: `std::ranges::copy( rng, c_.data() + top_ )`
writes the elements of the range at consecutive indices starting at `top_`.
The bounds check on each write reflects `std::array` index validity; in
`push_range` it always succeeds because of the asserted precondition. -/
def copyFrom (f : Fin n → α) (i : Nat) : List α → (Fin n → α)
  | [] => f
  | x :: xs =>
    if h : i < n then copyFrom (Function.update f ⟨i, h⟩ x) (i + 1) xs else f

/-- Source: `push_range(rng)` asserts `size() + std::size(rng) <= capacity()`,
copies `rng` starting at `c_.data() + top_`, then advances `top_` by the
length of `rng`. -/
def push_range (s : ArrayStack α n) (l : List α) : Option (ArrayStack α n) :=
  if h : s.top_ + l.length ≤ n then
    some { c_ := copyFrom s.c_ s.top_ l, top_ := s.top_ + l.length, htop := h }
  else none

/-- Index at which `emplace` constructs the new element: the source
unconditionally executes `std::construct_at( c_.data() + top_, ... )`,
so the attempted write index is `top_` whatever the state. -/
def emplaceWriteIndex (s : ArrayStack α n) : Nat := s.top_

/-- Source: `emplace(values...)` constructs `T` at `c_.data() + top_` and
increments `top_`, with no assert (the throwing check is commented out).
`none` models the out-of-bounds construction on a full stack, which is
undefined behaviour, not an assertion. -/
def emplace (s : ArrayStack α n) (v : α) : Option (ArrayStack α n) :=
  if h : s.top_ < n then
    some { c_ := Function.update s.c_ ⟨s.top_, h⟩ v, top_ := s.top_ + 1, htop := h }
  else none

/-- Loop body of `swap`: `for( i = 0; i < maxTop; ++i ) std::swap( c_[i], rhs.c_[i] )`.
`swapLoop f g m` performs the exchanges for all `i < m` (each guarded by
`std::array` index validity, which always holds in `swap` since
`maxTop ≤ n`). -/
def swapLoop (f g : Fin n → α) : Nat → (Fin n → α) × (Fin n → α)
  | 0 => (f, g)
  | i + 1 =>
    let p := swapLoop f g i
    if h : i < n then
      (Function.update p.1 ⟨i, h⟩ (p.2 ⟨i, h⟩),
       Function.update p.2 ⟨i, h⟩ (p.1 ⟨i, h⟩))
    else p

/-- Source: `swap(rhs)` computes `maxTop = std::max( top_, rhs.top_ )`, swaps
`c_[i]` with `rhs.c_[i]` for each `i < maxTop`, then swaps the cursors.
Returns the pair (new this, new rhs). -/
def swap (a b : ArrayStack α n) : ArrayStack α n × ArrayStack α n :=
  let p := swapLoop a.c_ b.c_ (max a.top_ b.top_)
  (⟨p.1, b.top_, b.htop⟩, ⟨p.2, a.top_, a.htop⟩)

/-- Element loop of `operator==`: `std::equal( start, start + top_, rhs.c_.data() )`,
comparing the first `k` slots of the two arrays. -/
def eqRange [DecidableEq α] (f g : Fin n → α) : Nat → Bool
  | 0 => true
  | k + 1 =>
    eqRange f g k && (if h : k < n then decide (f ⟨k, h⟩ = g ⟨k, h⟩) else true)

/-- Source: `operator==` returns `false` when `top_ != rhs.top_`, otherwise
`std::equal` over exactly the first `top_` elements of both arrays. -/
def beq [DecidableEq α] (a b : ArrayStack α n) : Bool :=
  if a.top_ ≠ b.top_ then false else eqRange a.c_ b.c_ a.top_

/-- Comparison capabilities of an element type, as seen by `SynthThreeWay`:
whether the type satisfies `std::three_way_comparable_with` (and if so its
`<=>`), and its boolean-testable `<` and `>` operators. -/
structure CmpOps (α : Type) where
  threeWayComparable : Bool
  threeWay : α → α → Ordering
  lt : α → α → Bool
  gt : α → α → Bool

/-- Source: `SynthThreeWay::operator()` — when the element type supports
`operator<=>` it returns `lhs <=> rhs`; otherwise it synthesizes the result
from `<` and `>`: less if `lhs < rhs`, else greater if `lhs > rhs`,
else equal. -/
def SynthThreeWay (ops : CmpOps α) (lhs rhs : α) : Ordering :=
  if ops.threeWayComparable then ops.threeWay lhs rhs
  else if ops.lt lhs rhs then Ordering.lt
  else if ops.gt lhs rhs then Ordering.gt
  else Ordering.eq

/-- Comparison capabilities of `int` (an element type with a native `<=>`). -/
def intCmpOps : CmpOps Int :=
  { threeWayComparable := true
    threeWay := compare
    lt := fun a b => decide (a < b)
    gt := fun a b => decide (a > b) }

/-- Comparison capabilities of an element type wrapping `int` that provides
only `<` and `>` and no `<=>`; its `threeWay` field is irrelevant to
`SynthThreeWay` (set to a constant). -/
def intLtGtOps : CmpOps Int :=
  { threeWayComparable := false
    threeWay := fun _ _ => Ordering.eq
    lt := fun a b => decide (a < b)
    gt := fun a b => decide (a > b) }

/-- The semantics of `std::lexicographical_compare_three_way cmp` on the two
element ranges, here represented as lists: compare elementwise by `cmp`
until a non-equal result or until a range is exhausted; then the shorter
range is less, equal lengths are equal. -/
def lexCompareThreeWay (cmp : α → α → Ordering) : List α → List α → Ordering
  | [], [] => Ordering.eq
  | [], _ :: _ => Ordering.lt
  | _ :: _, [] => Ordering.gt
  | x :: xs, y :: ys =>
    match cmp x y with
    | Ordering.eq => lexCompareThreeWay cmp xs ys
    | o => o

/-- Occupied region of the stack as a list: the element range
`[c_.data(), c_.data() + top_)` used by `operator==` and `operator<=>`. -/
def toList (s : ArrayStack α n) : List α := (List.ofFn s.c_).take s.top_

/-- Source: `operator<=>` runs `std::lexicographical_compare_three_way` over
`[c_.data(), c_.data()+top_)` versus `[rhs.c_.data(), rhs.c_.data()+rhs.top_)`
with comparator `SynthThreeWay{}`; parameterized here by the element
comparator. -/
def spaceship (cmp : α → α → Ordering) (a b : ArrayStack α n) : Ordering :=
  lexCompareThreeWay cmp a.toList b.toList

/-- The container ordering at element type `int`, whose `SynthThreeWay`
takes the native `<=>` branch. -/
def spaceshipInt (a b : ArrayStack Int n) : Ordering :=
  spaceship (SynthThreeWay intCmpOps) a b

/-- Condition of the `assert( !full() )` at the top of `push`. -/
def push_assertCond (s : ArrayStack α n) : Bool := !(full s)

/-- Condition of the `assert( !empty() )` at the top of `pop`. -/
def pop_assertCond (s : ArrayStack α n) : Bool := !(empty s)

/-- Condition of the `assert( !empty() )` at the top of `top`. -/
def top_assertCond (s : ArrayStack α n) : Bool := !(empty s)

/-- Condition of the `assert( ( size() + std::size( rng ) ) <= capacity() )`
at the top of `push_range`. -/
def push_range_assertCond (s : ArrayStack α n) (l : List α) : Bool :=
  decide (size s + l.length ≤ capacity s)

/-- Conjunction of the conditions of the assert statements in the body of
`emplace`: that body contains no assert (its overflow check is commented
out), so the conjunction is vacuously `true`. -/
def emplace_assertCond (_ : ArrayStack α n) : Bool := true

end ArrayStack

/-- Condition of the `assert( count <= N )` in the iterator-pair overload of
`MakeArray`, where `count = std::distance( first, last )` is the length of
the traversed input, here a list. -/
def MakeArrayIt_assertCond (α : Type) (n : Nat) (l : List α) : Bool :=
  decide (l.length ≤ n)

/-- Conjunction of the conditions of the assert statements in the body of the
sized-range overload of `MakeArray`: that body computes `count` and runs
`std::ranges::copy_n` with no assert at all, so the conjunction is
vacuously `true`. -/
def MakeArrayRange_assertCond (α : Type) (_n : Nat) (_l : List α) : Bool := true

namespace ArrayStack

/-- Source (iterator-pair constructor): `c_` is `MakeArray<InIt, N>(first, last)`
— asserts `count <= N`, copies the `count` traversed elements into a
default-initialized `std::array` — and `top_` is the traversal length.
`none` models the `MakeArray` assertion failing. -/
def ofIt [Inhabited α] (n : Nat) (l : List α) : Option (ArrayStack α n) :=
  if h : l.length ≤ n then
    some { c_ := fun i => l.getD i.val default, top_ := l.length, htop := h }
  else none

/-- Modelled from the spec: the throwing operational mode of `push`, which is
present in the source only as the commented-out line
`if( full() ) throw std::out_of_range( "stack overflow" );` before the
writes. On a full stack it reports the overflow failure and performs no
mutation; otherwise it behaves exactly like the default-mode `push`. -/
def pushThrowing (s : ArrayStack α n) (v : α) : Except String (ArrayStack α n) :=
  if h : s.top_ < n then
    Except.ok { c_ := Function.update s.c_ ⟨s.top_, h⟩ v, top_ := s.top_ + 1, htop := h }
  else Except.error "stack overflow"

/-- Test-harness constructor: a concrete stack holding the elements of `l`
(junk slots hold `default`). -/
def ofListD [Inhabited α] (n : Nat) (l : List α) : ArrayStack α n :=
  { c_ := fun i => l.getD i.val default
    top_ := min l.length n
    htop := Nat.min_le_right _ _ }

/-- Test-harness constructor: storage holding the elements of `l` (junk
slots hold `default`) with an explicitly chosen cursor (clipped to `n`),
for building states that differ only in unoccupied slots. -/
def ofListTop [Inhabited α] (n : Nat) (l : List α) (t : Nat) : ArrayStack α n :=
  { c_ := fun i => l.getD i.val default
    top_ := min t n
    htop := Nat.min_le_right _ _ }

/-- Specification-side reference for `push_range`: push each element of the
list individually, in order (`none` as soon as one push fails). -/
def pushEach (s : ArrayStack α n) (l : List α) : Option (ArrayStack α n) :=
  l.foldlM push s

/-- Observational equivalence of states: same cursor and same contents of the
occupied slots; the two states may differ arbitrarily in the unoccupied
slots (`i ≥ top_`). -/
def obsEquiv (a b : ArrayStack α n) : Prop :=
  a.top_ = b.top_ ∧ ∀ i : Fin n, i.val < a.top_ → a.c_ i = b.c_ i

instance [DecidableEq α] (a b : ArrayStack α n) : Decidable (obsEquiv a b) :=
  decidable_of_iff
    (a.top_ = b.top_ ∧ ∀ i : Fin n, i.val < a.top_ → a.c_ i = b.c_ i) Iff.rfl

/-- Observational equivalence lifted to operation results: aborted outcomes
match each other, defined outcomes must be observationally equivalent. -/
def optEquiv : Option (ArrayStack α n) → Option (ArrayStack α n) → Prop
  | some a, some b => obsEquiv a b
  | none, none => True
  | _, _ => False

/-- C6: the synthesized per-element comparison — for element types without a
native three-way comparison but with boolean-testable `<` and `>`,
`SynthThreeWay` returns less if `a < b`, else greater if `a > b`, else
equal (and on `int` wrapped that way it coincides with the order's
three-way comparison); for types with a native three-way comparison it
returns exactly that comparison's result. -/
theorem claim6_synth_three_way (ops : CmpOps α) (a b : α) (x y : Int) :
    (ops.threeWayComparable = false →
      SynthThreeWay ops a b =
        (if ops.lt a b then Ordering.lt
         else if ops.gt a b then Ordering.gt
         else Ordering.eq)) ∧
    (ops.threeWayComparable = true → SynthThreeWay ops a b = ops.threeWay a b) ∧
    (SynthThreeWay intLtGtOps x y = compare x y) ∧
    (SynthThreeWay intCmpOps x y = compare x y) := by
  refine ⟨?_, ?_, ?_, rfl⟩
  · intro h
    rw [SynthThreeWay, h]
    rfl
  · intro h
    rw [SynthThreeWay, h]
    rfl
  · rw [SynthThreeWay, intLtGtOps]
    rcases lt_trichotomy x y with h | h | h
    · simp [h, compare_lt_iff_lt.mpr h]
    · subst h
      simp [lt_irrefl, compare_eq_iff_eq.mpr rfl]
    · simp [h, not_lt_of_gt h, compare_gt_iff_gt.mpr h]

/-- C6 witness at a concrete input: the no-native-three-way branch on the
values 3 and 5. -/
theorem claim6_synth_three_way_witness :
    SynthThreeWay intLtGtOps 3 5 =
      (if intLtGtOps.lt 3 5 then Ordering.lt
       else if intLtGtOps.gt 3 5 then Ordering.gt
       else Ordering.eq) :=
  (claim6_synth_three_way intLtGtOps (3 : Int) 5 3 5).1 rfl

/-- C8: in the throwing mode with Capacity 1, `push 1` on the empty stack
succeeds; a second `push 2` raises the overflow failure and the container
still reports `size() = 1` and `top() = 1`. -/
theorem claim8_throwing_push_overflow :
    ∃ s1 : ArrayStack Int 1,
      pushThrowing (ofListD 1 []) (1 : Int) = Except.ok s1 ∧
      pushThrowing s1 2 = Except.error "stack overflow" ∧
      size s1 = 1 ∧ top? s1 = some 1 := by
  refine ⟨_, rfl, rfl, rfl, ?_⟩
  simp [top?, ofListD, Function.update]

/-- C9 counterexample: the sized-range construction path violates the claim —
at `Capacity = 1` with the two-element source `[0, 0]` the precondition
(source length at most capacity) is violated, yet the assertion condition
of the sized-range `MakeArray` overload does not fail (that body contains
no assertion at all). -/
theorem claim9_counterexample :
    MakeArrayRange_assertCond Int 1 [0, 0] = true ∧
      ¬(([0, 0] : List Int).length ≤ 1) := by
  exact ⟨rfl, by decide⟩

/-- C9 (amended): in the default configuration, push-when-full, pop-when-empty,
top-when-empty, iterator-pair construction from a source longer than
Capacity, and an overflowing `push_range` are each defended by a debug
assertion whose condition fails exactly when the precondition is violated;
the sized-range construction path, however, contains no assertion: its
condition is vacuously true even when the source is longer than
Capacity. -/
theorem claim9_assert_conditions (s : ArrayStack α n) (l : List α) :
    (push_assertCond s = false ↔ full s = true) ∧
    (pop_assertCond s = false ↔ empty s = true) ∧
    (top_assertCond s = false ↔ empty s = true) ∧
    (push_range_assertCond s l = false ↔ ¬(size s + l.length ≤ capacity s)) ∧
    (MakeArrayIt_assertCond α n l = false ↔ ¬(l.length ≤ n)) ∧
    (MakeArrayRange_assertCond α n l = true) := by
  refine ⟨?_, ?_, ?_, ?_, ?_, rfl⟩
  · simp [push_assertCond]
  · simp [pop_assertCond]
  · simp [top_assertCond]
  · simp [push_range_assertCond]
  · simp [MakeArrayIt_assertCond]

/-- C9 witness at a concrete input: a full stack of capacity 1 fails the
push assertion. -/
theorem claim9_assert_conditions_witness :
    push_assertCond (ofListD 1 [(3 : Int)]) = false ↔
      full (ofListD 1 [(3 : Int)]) = true :=
  (claim9_assert_conditions (ofListD 1 [(3 : Int)]) []).1

/-- C10: `emplace` performs no check at all — its assertion condition is
vacuously true, unlike `push`, `pop` and `top`, whose assertions check
not-full resp. not-empty. Under the hypothesis `size < Capacity` it
constructs the value at `storage[size]` and increments the size; on a
full stack the attempted construction index equals Capacity, which is out
of the array's bounds. -/
theorem claim10_emplace_unchecked (s : ArrayStack α n) (v : α) :
    emplace_assertCond s = true ∧
    (push_assertCond s = !(full s) ∧ pop_assertCond s = !(empty s) ∧
      top_assertCond s = !(empty s)) ∧
    (∀ h : size s < n, emplace s v =
      some { c_ := Function.update s.c_ ⟨size s, h⟩ v
             top_ := size s + 1, htop := h }) ∧
    (full s = true → emplaceWriteIndex s = n ∧ ¬(emplaceWriteIndex s < n)) := by
  refine ⟨rfl, ⟨rfl, rfl, rfl⟩, ?_, ?_⟩
  · intro h
    have h' : s.top_ < n := h
    rw [emplace, dif_pos h']
    rfl
  · intro h
    have hn : s.top_ = n := by simpa [full] using h
    have hw : emplaceWriteIndex s = n := hn
    exact ⟨hw, by rw [hw]; omega⟩

/-- C10 witness at a concrete input: on a full stack of capacity 1, the
attempted construction index is 1, out of bounds. -/
theorem claim10_emplace_unchecked_witness :
    emplaceWriteIndex (ofListD 1 [(3 : Int)]) = 1 ∧
      ¬(emplaceWriteIndex (ofListD 1 [(3 : Int)]) < 1) :=
  (claim10_emplace_unchecked (ofListD 1 [(3 : Int)]) 0).2.2.2 (by decide)

end ArrayStack

end PKIsensee

namespace PKIsensee

namespace ArrayStack

variable {α : Type} {n : Nat}

theorem push_pos (s : ArrayStack α n) (v : α) (h : s.top_ < n) :
    push s v = some { c_ := Function.update s.c_ ⟨s.top_, h⟩ v
                      top_ := s.top_ + 1, htop := h } := by
  simp [push, h]

theorem pushEach_cons (s : ArrayStack α n) (x : α) (xs : List α) :
    pushEach s (x :: xs) = push s x >>= fun t => pushEach t xs := by
  simp [pushEach]

/-- C1: on a non-full stack, `push v` immediately followed by `pop` succeeds
and restores the prior `size()`; when the prior size was at least 1 it also
restores the prior `top()`. -/
theorem claim1_lifo_round_trip (s : ArrayStack α n) (v : α) (h : size s < n) :
    ∃ s₁ s₂, push s v = some s₁ ∧ pop s₁ = some s₂ ∧
      size s₂ = size s ∧ (1 ≤ size s → top? s₂ = top? s) := by
  have h' : s.top_ < n := h
  refine ⟨{ c_ := Function.update s.c_ ⟨s.top_, h'⟩ v, top_ := s.top_ + 1, htop := h' },
    { c_ := Function.update s.c_ ⟨s.top_, h'⟩ v, top_ := s.top_, htop := Nat.le_of_lt h' },
    push_pos s v h', ?_, rfl, ?_⟩
  · simp only [pop, if_pos (Nat.succ_pos s.top_)]
    exact congrArg some (ext_state _ _ rfl rfl)
  · intro h1
    have h1' : 0 < s.top_ := h1
    have hne : (⟨s.top_ - 1, by have := s.htop; omega⟩ : Fin n) ≠ ⟨s.top_, h'⟩ := by
      intro hcon
      have := congrArg Fin.val hcon
      simp at this
      omega
    simp only [top?, dif_pos h1']
    exact congrArg some (Function.update_noteq hne v s.c_)

/-- C1 witness at a concrete input: capacity 2, stack holding one element. -/
theorem claim1_lifo_round_trip_witness :
    ∃ s₁ s₂, push (ofListD 2 [5]) (7 : Int) = some s₁ ∧ pop s₁ = some s₂ ∧
      size s₂ = size (ofListD 2 [5]) ∧
      (1 ≤ size (ofListD 2 [5]) → top? s₂ = top? (ofListD 2 [5])) :=
  claim1_lifo_round_trip (ofListD 2 [5]) 7 (by decide)

theorem push_range_eq_pushEach (l : List α) :
    ∀ s : ArrayStack α n, s.top_ + l.length ≤ n → push_range s l = pushEach s l := by
  induction l with
  | nil =>
    intro s h
    have h0 : s.top_ + ([] : List α).length ≤ n := by simpa using s.htop
    rw [push_range, dif_pos h0]
    show _ = some s
    exact congrArg some (ext_state _ _ rfl rfl)
  | cons x xs ih =>
    intro s h
    have hx : s.top_ < n := by simp at h; omega
    have hguard : s.top_ + (x :: xs).length ≤ n := h
    have hguard' : (s.top_ + 1) + xs.length ≤ n := by simp at h ⊢; omega
    rw [pushEach_cons, push_pos s x hx]
    simp only [Option.bind_eq_bind, Option.some_bind]
    rw [← ih _ hguard']
    simp only [push_range, dif_pos hguard, dif_pos hguard']
    refine congrArg some (ext_state _ _ ?_ ?_)
    · show copyFrom s.c_ s.top_ (x :: xs) = _
      rw [copyFrom, dif_pos hx]
    · show s.top_ + (xs.length + 1) = (s.top_ + 1) + xs.length
      omega

/-- C2: when `size() + length(seq) ≤ Capacity`, `push_range seq` produces
exactly the state reached by pushing each element of `seq` individually in
sequence order; when the precondition fails, the assertion fires before any
write (no partial mutation). -/
theorem claim2_push_range_refines_pushes (s : ArrayStack α n) (l : List α) :
    (size s + l.length ≤ capacity s → push_range s l = pushEach s l) ∧
    (¬(size s + l.length ≤ capacity s) → push_range s l = none) := by
  constructor
  · intro h
    exact push_range_eq_pushEach l s h
  · intro h
    have h' : ¬(s.top_ + l.length ≤ n) := h
    simp only [push_range]
    rw [dif_neg h']

/-- C2 witness at a concrete input: capacity 3, one element pushed, range of
two elements. -/
theorem claim2_push_range_refines_pushes_witness :
    push_range (ofListD 3 [4]) [7, 9] = pushEach (ofListD 3 [4]) ([7, 9] : List Int) :=
  (claim2_push_range_refines_pushes (ofListD 3 [4]) [7, 9]).1 (by decide)

theorem eqRange_iff [DecidableEq α] (f g : Fin n → α) (k : Nat) (hk : k ≤ n) :
    eqRange f g k = true ↔ ∀ i : Fin n, i.val < k → f i = g i := by
  induction k with
  | zero => simp [eqRange]
  | succ m ih =>
    have hm : m < n := hk
    rw [eqRange, dif_pos hm, Bool.and_eq_true, decide_eq_true_eq,
      ih (Nat.le_of_lt hm)]
    constructor
    · rintro ⟨h1, h2⟩ i hi
      rcases Nat.lt_or_ge i.val m with hlt | hge
      · exact h1 i hlt
      · have : i = ⟨m, hm⟩ := Fin.ext (show i.val = m by omega)
        rw [this]; exact h2
    · intro h
      exact ⟨fun i hi => h i (Nat.lt_succ_of_lt hi), h ⟨m, hm⟩ (Nat.lt_succ_self m)⟩

theorem eqRange_congr [DecidableEq α] (f g f' g' : Fin n → α) (k : Nat)
    (hf : ∀ i : Fin n, i.val < k → f i = f' i)
    (hg : ∀ i : Fin n, i.val < k → g i = g' i) :
    eqRange f g k = eqRange f' g' k := by
  induction k with
  | zero => rfl
  | succ m ih =>
    rw [eqRange, eqRange,
      ih (fun i hi => hf i (by omega)) (fun i hi => hg i (by omega))]
    by_cases h : m < n
    · rw [dif_pos h, dif_pos h, hf ⟨m, h⟩ (by simp), hg ⟨m, h⟩ (by simp)]
    · rw [dif_neg h, dif_neg h]

theorem beq_congr [DecidableEq α] (a b a' b' : ArrayStack α n)
    (ha : obsEquiv a a') (hb : obsEquiv b b') : beq a b = beq a' b' := by
  obtain ⟨hat, hac⟩ := ha
  obtain ⟨hbt, hbc⟩ := hb
  rw [beq, beq, ← hat, ← hbt]
  by_cases h : a.top_ ≠ b.top_
  · rw [if_pos h, if_pos h]
  · rw [if_neg h, if_neg h]
    push_neg at h
    exact eqRange_congr _ _ _ _ _ hac (fun i hi => hbc i (by omega))

/-- C3: `operator==` returns true exactly when the sizes agree and the
occupied slots agree pairwise; its result depends only on the sizes and the
occupied prefixes (it never reads unoccupied slots). -/
theorem claim3_operator_eq [DecidableEq α] (a b : ArrayStack α n) :
    (beq a b = true ↔
      size a = size b ∧ ∀ i : Fin n, i.val < size a → a.c_ i = b.c_ i) ∧
    (∀ a' b' : ArrayStack α n, obsEquiv a a' → obsEquiv b b' →
      beq a b = beq a' b') := by
  constructor
  · rw [beq]
    by_cases h : a.top_ ≠ b.top_
    · rw [if_pos h]
      simp only [Bool.false_eq_true, false_iff]
      intro hcon
      exact h hcon.1
    · rw [if_neg h]
      push_neg at h
      rw [eqRange_iff _ _ _ a.htop]
      exact ⟨fun hc => ⟨h, hc⟩, fun hc => hc.2⟩
  · exact fun a' b' => beq_congr a b a' b'

/-- C3 witness at concrete inputs: two stacks equal on the occupied prefix
but different in a junk slot still compare equal. -/
theorem claim3_operator_eq_witness :
    beq (ofListD 3 [(4 : Int), 6]) (ofListTop 3 [4, 6, 9] 2) =
      beq (ofListD 3 [(4 : Int), 6]) (ofListTop 3 [4, 6, 8] 2) :=
  (claim3_operator_eq (ofListD 3 [4, 6]) (ofListTop 3 [(4 : Int), 6, 9] 2)).2
    (ofListD 3 [4, 6]) (ofListTop 3 [4, 6, 8] 2) (by decide) (by decide)

theorem swapLoop_apply (f g : Fin n → α) (m : Nat) (j : Fin n) :
    (swapLoop f g m).1 j = (if j.val < m then g j else f j) ∧
    (swapLoop f g m).2 j = (if j.val < m then f j else g j) := by
  induction m with
  | zero => simp [swapLoop]
  | succ i ih =>
    obtain ⟨ih1, ih2⟩ := ih
    by_cases h : i < n
    · simp only [swapLoop, dif_pos h]
      by_cases hj : j = ⟨i, h⟩
      · subst hj
        simp [Function.update_same, ih1, ih2]
      · have hjv : j.val ≠ i := fun hv => hj (Fin.ext hv)
        rw [Function.update_noteq hj, Function.update_noteq hj, ih1, ih2]
        by_cases hlt : j.val < i
        · simp [hlt, show j.val < i + 1 by omega]
        · simp [hlt, show ¬(j.val < i + 1) by omega]
    · simp only [swapLoop, dif_neg h]
      have hji : j.val < i := by have := j.isLt; omega
      rw [ih1, ih2]
      simp [hji, show j.val < i + 1 by omega]

/-- C5: `swap` gives each stack the other's prior cursor, exchanges the array
slots below `max(size, other.size)` pairwise, and leaves every slot at or
beyond `max(size, other.size)` untouched in both stacks. -/
theorem claim5_swap (a b : ArrayStack α n) :
    (swap a b).1.top_ = b.top_ ∧ (swap a b).2.top_ = a.top_ ∧
    (∀ i : Fin n, i.val < max a.top_ b.top_ →
      (swap a b).1.c_ i = b.c_ i ∧ (swap a b).2.c_ i = a.c_ i) ∧
    (∀ i : Fin n, max a.top_ b.top_ ≤ i.val →
      (swap a b).1.c_ i = a.c_ i ∧ (swap a b).2.c_ i = b.c_ i) := by
  refine ⟨rfl, rfl, fun i hi => ?_, fun i hi => ?_⟩
  · obtain ⟨h1, h2⟩ := swapLoop_apply a.c_ b.c_ (max a.top_ b.top_) i
    exact ⟨by simpa [swap, hi] using h1, by simpa [swap, hi] using h2⟩
  · obtain ⟨h1, h2⟩ := swapLoop_apply a.c_ b.c_ (max a.top_ b.top_) i
    have hni : ¬(i.val < max a.top_ b.top_) := by omega
    exact ⟨by simpa [swap, hni] using h1, by simpa [swap, hni] using h2⟩

theorem intCompare_swap (a b : Int) : compare b a = (compare a b).swap := by
  rcases lt_trichotomy a b with h | h | h
  · simp [compare_lt_iff_lt.mpr h, compare_gt_iff_gt.mpr h, Ordering.swap]
  · subst h
    simp [compare_eq_iff_eq.mpr rfl, Ordering.swap]
  · simp [compare_lt_iff_lt.mpr h, compare_gt_iff_gt.mpr h, Ordering.swap]

theorem lexInt_eq_iff :
    ∀ xs ys : List Int, lexCompareThreeWay compare xs ys = Ordering.eq ↔ xs = ys := by
  intro xs
  induction xs with
  | nil =>
    intro ys
    cases ys <;> simp [lexCompareThreeWay]
  | cons x xs ih =>
    intro ys
    cases ys with
    | nil => simp [lexCompareThreeWay]
    | cons y ys =>
      rw [lexCompareThreeWay]
      cases h : compare x y with
      | lt =>
        have hxy : x ≠ y := ne_of_lt (compare_lt_iff_lt.mp h)
        simp [hxy]
      | eq =>
        have hxy : x = y := compare_eq_iff_eq.mp h
        subst hxy
        simp [ih ys]
      | gt =>
        have hxy : x ≠ y := (ne_of_lt (compare_gt_iff_gt.mp h)).symm
        simp [hxy]

theorem lexInt_swap :
    ∀ xs ys : List Int,
      lexCompareThreeWay compare ys xs = (lexCompareThreeWay compare xs ys).swap := by
  intro xs
  induction xs with
  | nil =>
    intro ys
    cases ys <;> simp [lexCompareThreeWay, Ordering.swap]
  | cons x xs ih =>
    intro ys
    cases ys with
    | nil => simp [lexCompareThreeWay, Ordering.swap]
    | cons y ys =>
      rw [lexCompareThreeWay, lexCompareThreeWay, intCompare_swap x y]
      cases h : compare x y with
      | lt => simp [Ordering.swap]
      | eq => simp [Ordering.swap, ih ys]
      | gt => simp [Ordering.swap]

theorem lexInt_trans_lt :
    ∀ xs ys zs : List Int,
      lexCompareThreeWay compare xs ys = Ordering.lt →
      lexCompareThreeWay compare ys zs = Ordering.lt →
      lexCompareThreeWay compare xs zs = Ordering.lt := by
  intro xs
  induction xs with
  | nil =>
    intro ys zs h1 h2
    cases zs with
    | nil =>
      cases ys with
      | nil => simp [lexCompareThreeWay] at h1
      | cons y ys => simp [lexCompareThreeWay] at h2
    | cons z zs => simp [lexCompareThreeWay]
  | cons x xs ih =>
    intro ys zs h1 h2
    cases ys with
    | nil => simp [lexCompareThreeWay] at h1
    | cons y ys =>
      cases zs with
      | nil => simp [lexCompareThreeWay] at h2
      | cons z zs =>
        rw [lexCompareThreeWay] at h1 h2 ⊢
        cases hxy : compare x y with
        | gt => rw [hxy] at h1; simp at h1
        | lt =>
          rw [hxy] at h1
          have hx : x < y := compare_lt_iff_lt.mp hxy
          cases hyz : compare y z with
          | gt => rw [hyz] at h2; simp at h2
          | lt =>
            have hz : x < z := lt_trans hx (compare_lt_iff_lt.mp hyz)
            rw [compare_lt_iff_lt.mpr hz]
          | eq =>
            have hyeq : y = z := compare_eq_iff_eq.mp hyz
            subst hyeq
            rw [compare_lt_iff_lt.mpr hx]
        | eq =>
          have hxeq : x = y := compare_eq_iff_eq.mp hxy
          subst hxeq
          rw [hxy] at h1
          simp only at h1
          cases hyz : compare x z with
          | gt => rw [hyz] at h2; simp at h2
          | lt => rfl
          | eq =>
            have hzeq : x = z := compare_eq_iff_eq.mp hyz
            subst hzeq
            rw [hyz] at h2
            exact ih ys zs h1 h2

theorem lexInt_append (cs xs ys : List Int) :
    lexCompareThreeWay compare (cs ++ xs) (cs ++ ys) =
      lexCompareThreeWay compare xs ys := by
  induction cs with
  | nil => rfl
  | cons c cs ih =>
    rw [List.cons_append, List.cons_append, lexCompareThreeWay,
      show compare c c = Ordering.eq from compare_eq_iff_eq.mpr rfl]
    exact ih

theorem toList_length (s : ArrayStack α n) : s.toList.length = s.top_ := by
  rw [toList, List.length_take, List.length_ofFn]
  exact Nat.min_eq_left s.htop

theorem toList_getElem? (s : ArrayStack α n) (i : Nat) (hi : i < s.top_) :
    s.toList[i]? = some (s.c_ ⟨i, Nat.lt_of_lt_of_le hi s.htop⟩) := by
  have hin : i < n := Nat.lt_of_lt_of_le hi s.htop
  rw [toList, List.getElem?_take]
  rw [if_pos hi, List.getElem?_eq_some_iff]
  refine ⟨by simpa using hin, ?_⟩
  rw [List.getElem_ofFn]

theorem toList_eq_iff (a b : ArrayStack α n) :
    a.toList = b.toList ↔ obsEquiv a b := by
  constructor
  · intro h
    have htops : a.top_ = b.top_ := by
      rw [← toList_length a, ← toList_length b, h]
    refine ⟨htops, fun i hi => ?_⟩
    have h1 := toList_getElem? a i.val hi
    have h2 := toList_getElem? b i.val (htops ▸ hi)
    rw [h, h2] at h1
    simpa using h1.symm
  · rintro ⟨htops, hc⟩
    refine List.ext_getElem? fun i => ?_
    by_cases hi : i < a.top_
    · rw [toList_getElem? a i hi, toList_getElem? b i (htops ▸ hi)]
      exact congrArg some (hc _ hi)
    · rw [List.getElem?_eq_none, List.getElem?_eq_none]
      · rw [toList_length]; omega
      · rw [toList_length]; omega

theorem spaceshipInt_eq_lex (a b : ArrayStack Int n) :
    spaceshipInt a b = lexCompareThreeWay compare a.toList b.toList := by
  have hs : SynthThreeWay intCmpOps = (compare : Int → Int → Ordering) := by
    funext x y
    rfl
  rw [spaceshipInt, spaceship, hs]

/-- C4: `operator<=>` computes exactly lexicographic sequence ordering over
the occupied prefixes (`toList`), and that ordering is total: `eq` exactly
on equal prefixes, swap-antisymmetric, transitive on `lt`; the first
differing element pair decides the result; a strict prefix orders before
the longer sequence; and concretely `[1,2] < [1,3]`, `[1] < [1,2]`,
`[2] > [1,9]`. -/
theorem claim4_spaceship_lex_order (a b c : ArrayStack Int n)
    (cs xs ys zs : List Int) (x y z : Int) :
    (spaceshipInt a b = lexCompareThreeWay compare a.toList b.toList) ∧
    (spaceshipInt a b = Ordering.eq ↔ a.toList = b.toList) ∧
    (spaceshipInt b a = (spaceshipInt a b).swap) ∧
    (spaceshipInt a b = Ordering.lt → spaceshipInt b c = Ordering.lt →
      spaceshipInt a c = Ordering.lt) ∧
    (a.toList = cs ++ x :: xs → b.toList = cs ++ y :: ys →
      compare x y ≠ Ordering.eq → spaceshipInt a b = compare x y) ∧
    (a.toList = cs → b.toList = cs ++ z :: zs → spaceshipInt a b = Ordering.lt) ∧
    (spaceshipInt (ofListD 2 [1, 2]) (ofListD 2 [1, 3]) = Ordering.lt) ∧
    (spaceshipInt (ofListD 2 [1]) (ofListD 2 [1, 2]) = Ordering.lt) ∧
    (spaceshipInt (ofListD 2 [2]) (ofListD 2 [1, 9]) = Ordering.gt) := by
  refine ⟨spaceshipInt_eq_lex a b, ?_, ?_, ?_, ?_, ?_, by decide, by decide, by decide⟩
  · rw [spaceshipInt_eq_lex, lexInt_eq_iff]
  · rw [spaceshipInt_eq_lex, spaceshipInt_eq_lex, lexInt_swap]
  · rw [spaceshipInt_eq_lex, spaceshipInt_eq_lex, spaceshipInt_eq_lex]
    exact lexInt_trans_lt _ _ _
  · intro ha hb hne
    rw [spaceshipInt_eq_lex, ha, hb, lexInt_append]
    rw [lexCompareThreeWay]
    cases h : compare x y with
    | lt => rfl
    | eq => exact absurd h hne
    | gt => rfl
  · intro ha hb
    rw [spaceshipInt_eq_lex, ha, hb, show cs ++ z :: zs = cs ++ z :: zs from rfl]
    have : lexCompareThreeWay compare (cs ++ []) (cs ++ z :: zs) = Ordering.lt := by
      rw [lexInt_append]
      rfl
    simpa using this

/-- C4 witness at concrete inputs: the strict-prefix rule applied to the
stacks holding `[1]` and `[1,2]` at capacity 2. -/
theorem claim4_spaceship_lex_order_witness :
    spaceshipInt (ofListD 2 [1]) (ofListD 2 [1, 2]) = Ordering.lt :=
  ((claim4_spaceship_lex_order (ofListD 2 [1]) (ofListD 2 [1, 2])
    (ofListD 2 [1]) [1] [] [2] [] 1 1 2).2.2.2.2.2.1) (by decide) (by decide)

/-- C5 witness at concrete inputs: capacity 3, sizes 1 and 2. -/
theorem claim5_swap_witness :
    (swap (ofListD 3 [5]) (ofListD 3 [7, 8])).1.top_ = (ofListD 3 [(7 : Int), 8]).top_ ∧
    (swap (ofListD 3 [5]) (ofListD 3 [7, 8])).1.c_ ⟨0, by omega⟩ =
      (ofListD 3 [(7 : Int), 8]).c_ ⟨0, by omega⟩ ∧
    (swap (ofListD 3 [5]) (ofListD 3 [7, 8])).2.c_ ⟨2, by omega⟩ =
      (ofListD 3 [(7 : Int), 8]).c_ ⟨2, by omega⟩ := by
  obtain ⟨h1, _, h3, h4⟩ := claim5_swap (ofListD 3 [(5 : Int)]) (ofListD 3 [7, 8])
  exact ⟨h1, (h3 ⟨0, by omega⟩ (by decide)).1, (h4 ⟨2, by omega⟩ (by decide)).2⟩

theorem optEquiv_some (a b : ArrayStack α n) :
    optEquiv (some a) (some b) ↔ obsEquiv a b := Iff.rfl

theorem emplace_eq_push (s : ArrayStack α n) (v : α) : emplace s v = push s v := rfl

theorem top?_congr (s s' : ArrayStack α n) (h : obsEquiv s s') :
    top? s = top? s' := by
  obtain ⟨ht, hc⟩ := h
  rw [top?, top?]
  by_cases h0 : 0 < s.top_
  · have h0' : 0 < s'.top_ := ht ▸ h0
    rw [dif_pos h0, dif_pos h0']
    have hidx : (⟨s'.top_ - 1, by have := s'.htop; omega⟩ : Fin n) =
        ⟨s.top_ - 1, by have := s.htop; omega⟩ :=
      Fin.ext (show s'.top_ - 1 = s.top_ - 1 by omega)
    rw [hidx]
    exact congrArg some (hc _ (show s.top_ - 1 < s.top_ by omega))
  · rw [dif_neg h0, dif_neg (ht ▸ h0)]

theorem get?_congr (s s' : ArrayStack α n) (i : Nat) (h : obsEquiv s s') :
    get? s i = get? s' i := by
  obtain ⟨ht, hc⟩ := h
  rw [get?, get?]
  by_cases hi : i < s.top_
  · have hi' : i < s'.top_ := ht ▸ hi
    rw [dif_pos hi, dif_pos hi']
    exact congrArg some (hc ⟨i, by have := s.htop; omega⟩ hi)
  · rw [dif_neg hi, dif_neg (ht ▸ hi)]

theorem update_congr_lt (f f' : Fin n → α) (k : Nat) (hk : k < n) (v : α)
    (hf : ∀ i : Fin n, i.val < k → f i = f' i) :
    ∀ i : Fin n, i.val < k + 1 →
      Function.update f ⟨k, hk⟩ v i = Function.update f' ⟨k, hk⟩ v i := by
  intro i hi
  by_cases hie : i = ⟨k, hk⟩
  · rw [hie, Function.update_same, Function.update_same]
  · rw [Function.update_noteq hie, Function.update_noteq hie]
    have hv : i.val ≠ k := fun hv => hie (Fin.ext hv)
    exact hf i (by omega)

theorem push_optEquiv (s s' : ArrayStack α n) (v : α) (h : obsEquiv s s') :
    optEquiv (push s v) (push s' v) := by
  obtain ⟨ht, hc⟩ := h
  rw [push, push]
  by_cases hf : s.top_ < n
  · have hf' : s'.top_ < n := ht ▸ hf
    rw [dif_pos hf, dif_pos hf', optEquiv_some]
    have hidx : (⟨s'.top_, hf'⟩ : Fin n) = ⟨s.top_, hf⟩ := Fin.ext ht.symm
    rw [hidx]
    exact ⟨by simp [ht], update_congr_lt s.c_ s'.c_ s.top_ hf v hc⟩
  · rw [dif_neg hf, dif_neg (ht ▸ hf)]
    trivial

theorem pop_optEquiv (s s' : ArrayStack α n) (h : obsEquiv s s') :
    optEquiv (pop s) (pop s') := by
  obtain ⟨ht, hc⟩ := h
  rw [pop, pop]
  by_cases h0 : 0 < s.top_
  · rw [if_pos h0, if_pos (ht ▸ h0), optEquiv_some]
    refine ⟨by simp [ht], fun i hi => ?_⟩
    have hi' : i.val < s.top_ - 1 := hi
    exact hc i (by omega)
  · rw [if_neg h0, if_neg (ht ▸ h0)]
    trivial

theorem clear_obsEquiv (s s' : ArrayStack α n) (_ : obsEquiv s s') :
    obsEquiv (clear s) (clear s') :=
  ⟨rfl, fun i hi => absurd hi (by simp [clear])⟩

theorem copyFrom_congr (l : List α) :
    ∀ (f f' : Fin n → α) (k : Nat),
      (∀ i : Fin n, i.val < k → f i = f' i) →
      ∀ i : Fin n, i.val < k + l.length → copyFrom f k l i = copyFrom f' k l i := by
  induction l with
  | nil =>
    intro f f' k hf i hi
    exact hf i (by simpa using hi)
  | cons x xs ih =>
    intro f f' k hf i hi
    rw [copyFrom, copyFrom]
    by_cases hk : k < n
    · rw [dif_pos hk, dif_pos hk]
      refine ih _ _ _ (update_congr_lt f f' k hk x hf) i ?_
      simp at hi
      omega
    · rw [dif_neg hk, dif_neg hk]
      exact hf i (by have := i.isLt; omega)

theorem push_range_optEquiv (s s' : ArrayStack α n) (l : List α)
    (h : obsEquiv s s') : optEquiv (push_range s l) (push_range s' l) := by
  obtain ⟨ht, hc⟩ := h
  rw [push_range, push_range]
  by_cases hg : s.top_ + l.length ≤ n
  · have hg' : s'.top_ + l.length ≤ n := ht ▸ hg
    rw [dif_pos hg, dif_pos hg', optEquiv_some]
    refine ⟨by simp [ht], fun i hi => ?_⟩
    have hi' : i.val < s.top_ + l.length := hi
    show copyFrom s.c_ s.top_ l i = copyFrom s'.c_ s'.top_ l i
    rw [← ht]
    exact copyFrom_congr l s.c_ s'.c_ s.top_ hc i hi'
  · rw [dif_neg hg, dif_neg (ht ▸ hg)]
    trivial

theorem toList_congr (s s' : ArrayStack α n) (h : obsEquiv s s') :
    s.toList = s'.toList := (toList_eq_iff s s').mpr h

theorem spaceshipInt_congr (s s' t t' : ArrayStack Int n)
    (hs : obsEquiv s s') (ht : obsEquiv t t') :
    spaceshipInt s t = spaceshipInt s' t' := by
  rw [spaceshipInt, spaceshipInt, spaceship, spaceship,
    toList_congr s s' hs, toList_congr t t' ht]

theorem swap_obsEquiv (s s' t t' : ArrayStack α n)
    (hs : obsEquiv s s') (ht : obsEquiv t t') :
    obsEquiv (swap s t).1 (swap s' t').1 ∧
      obsEquiv (swap s t).2 (swap s' t').2 := by
  obtain ⟨hst, hsc⟩ := hs
  obtain ⟨htt, htc⟩ := ht
  have hmax : max s.top_ t.top_ = max s'.top_ t'.top_ := by rw [hst, htt]
  constructor
  · refine ⟨htt, fun i hi => ?_⟩
    have hi' : i.val < t.top_ := hi
    have hilt : i.val < max s.top_ t.top_ :=
      lt_of_lt_of_le hi' (le_max_right _ _)
    rw [show (swap s t).1.c_ = (swapLoop s.c_ t.c_ (max s.top_ t.top_)).1 from rfl,
      show (swap s' t').1.c_ = (swapLoop s'.c_ t'.c_ (max s'.top_ t'.top_)).1 from rfl,
      (swapLoop_apply s.c_ t.c_ (max s.top_ t.top_) i).1,
      (swapLoop_apply s'.c_ t'.c_ (max s'.top_ t'.top_) i).1,
      if_pos hilt, if_pos (hmax ▸ hilt)]
    exact htc i hi'
  · refine ⟨hst, fun i hi => ?_⟩
    have hi' : i.val < s.top_ := hi
    have hilt : i.val < max s.top_ t.top_ :=
      lt_of_lt_of_le hi' (le_max_left _ _)
    rw [show (swap s t).2.c_ = (swapLoop s.c_ t.c_ (max s.top_ t.top_)).2 from rfl,
      show (swap s' t').2.c_ = (swapLoop s'.c_ t'.c_ (max s'.top_ t'.top_)).2 from rfl,
      (swapLoop_apply s.c_ t.c_ (max s.top_ t.top_) i).2,
      (swapLoop_apply s'.c_ t'.c_ (max s'.top_ t'.top_) i).2,
      if_pos hilt, if_pos (hmax ▸ hilt)]
    exact hsc i hi'

/-- C7: no public operation reads an unoccupied slot — two states agreeing on
size and occupied prefix (but arbitrary in the unoccupied slots) give equal
results for every query, equality and ordering comparison, and
observationally equivalent results for every mutator and for `swap`. -/
theorem claim7_unoccupied_slots_unobservable (s s' t t' : ArrayStack Int n)
    (v : Int) (i : Nat) (l : List Int)
    (hs : obsEquiv s s') (ht : obsEquiv t t') :
    empty s = empty s' ∧ full s = full s' ∧ size s = size s' ∧
    capacity s = capacity s' ∧ top? s = top? s' ∧ get? s i = get? s' i ∧
    beq s t = beq s' t' ∧ spaceshipInt s t = spaceshipInt s' t' ∧
    optEquiv (push s v) (push s' v) ∧ optEquiv (pop s) (pop s') ∧
    obsEquiv (clear s) (clear s') ∧
    optEquiv (push_range s l) (push_range s' l) ∧
    optEquiv (emplace s v) (emplace s' v) ∧
    obsEquiv (swap s t).1 (swap s' t').1 ∧
    obsEquiv (swap s t).2 (swap s' t').2 := by
  refine ⟨?_, ?_, hs.1, rfl, top?_congr s s' hs, get?_congr s s' i hs,
    beq_congr s t s' t' hs ht, spaceshipInt_congr s s' t t' hs ht,
    push_optEquiv s s' v hs, pop_optEquiv s s' hs, clear_obsEquiv s s' hs,
    push_range_optEquiv s s' l hs, ?_,
    (swap_obsEquiv s s' t t' hs ht).1, (swap_obsEquiv s s' t t' hs ht).2⟩
  · rw [empty, empty, hs.1]
  · rw [full, full, hs.1]
  · rw [emplace_eq_push, emplace_eq_push]
    exact push_optEquiv s s' v hs

/-- C7 witness at concrete inputs: capacity-2 states of size 1 differing only
in their unoccupied slot. -/
theorem claim7_unoccupied_slots_unobservable_witness :
    empty (ofListTop 2 [(1 : Int), 5] 1) = empty (ofListTop 2 [(1 : Int), 6] 1) ∧
    full (ofListTop 2 [(1 : Int), 5] 1) = full (ofListTop 2 [(1 : Int), 6] 1) ∧
    size (ofListTop 2 [(1 : Int), 5] 1) = size (ofListTop 2 [(1 : Int), 6] 1) ∧
    capacity (ofListTop 2 [(1 : Int), 5] 1) = capacity (ofListTop 2 [(1 : Int), 6] 1) ∧
    top? (ofListTop 2 [(1 : Int), 5] 1) = top? (ofListTop 2 [(1 : Int), 6] 1) ∧
    get? (ofListTop 2 [(1 : Int), 5] 1) 0 = get? (ofListTop 2 [(1 : Int), 6] 1) 0 ∧
    beq (ofListTop 2 [(1 : Int), 5] 1) (ofListTop 2 [(2 : Int), 7] 1) =
      beq (ofListTop 2 [(1 : Int), 6] 1) (ofListTop 2 [(2 : Int), 8] 1) ∧
    spaceshipInt (ofListTop 2 [(1 : Int), 5] 1) (ofListTop 2 [(2 : Int), 7] 1) =
      spaceshipInt (ofListTop 2 [(1 : Int), 6] 1) (ofListTop 2 [(2 : Int), 8] 1) ∧
    optEquiv (push (ofListTop 2 [(1 : Int), 5] 1) 9) (push (ofListTop 2 [(1 : Int), 6] 1) 9) ∧
    optEquiv (pop (ofListTop 2 [(1 : Int), 5] 1)) (pop (ofListTop 2 [(1 : Int), 6] 1)) ∧
    obsEquiv (clear (ofListTop 2 [(1 : Int), 5] 1)) (clear (ofListTop 2 [(1 : Int), 6] 1)) ∧
    optEquiv (push_range (ofListTop 2 [(1 : Int), 5] 1) [(9 : Int)])
      (push_range (ofListTop 2 [(1 : Int), 6] 1) [(9 : Int)]) ∧
    optEquiv (emplace (ofListTop 2 [(1 : Int), 5] 1) 9) (emplace (ofListTop 2 [(1 : Int), 6] 1) 9) ∧
    obsEquiv (swap (ofListTop 2 [(1 : Int), 5] 1) (ofListTop 2 [(2 : Int), 7] 1)).1
      (swap (ofListTop 2 [(1 : Int), 6] 1) (ofListTop 2 [(2 : Int), 8] 1)).1 ∧
    obsEquiv (swap (ofListTop 2 [(1 : Int), 5] 1) (ofListTop 2 [(2 : Int), 7] 1)).2
      (swap (ofListTop 2 [(1 : Int), 6] 1) (ofListTop 2 [(2 : Int), 8] 1)).2 :=
  claim7_unoccupied_slots_unobservable
    (ofListTop 2 [(1 : Int), 5] 1) (ofListTop 2 [(1 : Int), 6] 1)
    (ofListTop 2 [(2 : Int), 7] 1) (ofListTop 2 [(2 : Int), 8] 1)
    9 0 [9] (by decide) (by decide)

end ArrayStack

end PKIsensee
